import Mathlib

/-!
Verification of the odds-conversion and parlay-aggregation core of the
parlay-odds-tool repository, shallowly embedded in Lean 4.

JavaScript numbers are modelled by `JSNum`: either a finite rational or one
of the non-finite values (NaN, ±Infinity).  Arithmetic on validated inputs is
carried out over exact rationals; the source guards every computation so that
all intermediate values stay finite over exact arithmetic.  Fallible
operations (the source returns `null`) are modelled with `Option`.
-/

set_option autoImplicit false

/-- Model of a JavaScript number: NaN, ±Infinity, or a finite rational. -/
inductive JSNum where
  | nan : JSNum
  | posInf : JSNum
  | negInf : JSNum
  | num : ℚ → JSNum
  deriving DecidableEq, Repr

/-- `Number.isFinite`. -/
def JSNum.isFinite : JSNum → Bool
  | .num _ => true
  | _ => false

/-- `x === 0` on a JavaScript number (false for NaN and the infinities). -/
def JSNum.eqZero : JSNum → Bool
  | .num q => q == 0
  | _ => false

/-- `Math.abs` on a finite value. -/
def jsAbs (q : ℚ) : ℚ := if q < 0 then -q else q

/-- `Math.round`: round half toward positive infinity. -/
def jsRound (q : ℚ) : ℤ := ⌊q + 1/2⌋

/-- `String.prototype.trim` (ASCII-whitespace fragment). -/
def jsTrim (s : String) : String :=
  ⟨((s.data.dropWhile Char.isWhitespace).reverse.dropWhile Char.isWhitespace).reverse⟩

/-- Value of a list of decimal digit characters. -/
def digitsToNat (cs : List Char) : ℕ :=
  cs.foldl (fun acc c => 10 * acc + (c.toNat - 48)) 0

/-- Magnitude of an unsigned decimal literal: digits, optionally split by a
single dot, with at least one digit present (`"12"`, `"12.5"`, `".5"`,
`"12."`); anything else is not a number. -/
def parseDecimalMagnitude (cs : List Char) : Option ℚ :=
  let intPart := cs.takeWhile Char.isDigit
  match cs.dropWhile Char.isDigit with
  | [] => if intPart.isEmpty then none else some (digitsToNat intPart)
  | '.' :: frac =>
      if frac.all Char.isDigit && !(intPart.isEmpty && frac.isEmpty) then
        some ((digitsToNat intPart : ℚ) + (digitsToNat frac : ℚ) / 10 ^ frac.length)
      else none
  | _ => none

/-- `Number(string)` on the decimal fragment of the JavaScript grammar:
whitespace is trimmed, the empty string is 0, an optional sign precedes
either `Infinity` or a decimal literal, and every other string is NaN. -/
def jsNumber (s : String) : JSNum :=
  let t := jsTrim s
  if t = "" then JSNum.num 0
  else
    let body : Bool × List Char :=
      match t.data with
      | '+' :: cs => (true, cs)
      | '-' :: cs => (false, cs)
      | cs => (true, cs)
    if body.2 = "Infinity".data then
      if body.1 then JSNum.posInf else JSNum.negInf
    else
      match parseDecimalMagnitude body.2 with
      | some q => JSNum.num (if body.1 then q else -q)
      | none => JSNum.nan

/-- `americanToDecimal` from src/utils/odds.ts. -/
def americanToDecimal (odds : JSNum) : Option ℚ :=
  match odds with
  | .num q =>
      if q = 0 then none
      else if 0 < q then some (1 + q / 100)
      else some (1 + 100 / jsAbs q)
  | _ => none

/-- `americanToImpliedProb` from src/utils/odds.ts. -/
def americanToImpliedProb (odds : JSNum) : Option ℚ :=
  match odds with
  | .num q =>
      if q = 0 then none
      else if 0 < q then some (100 / (q + 100))
      else some (jsAbs q / (jsAbs q + 100))
  | _ => none

/-- Result record of `analyzeTwoSidedMarket` (src/utils/odds.ts). -/
structure MarketVigResult where
  pYou : ℚ
  pOpp : ℚ
  overround : ℚ
  hold : ℚ
  pNoVigYou : ℚ
  fairDecimal : ℚ
  houseEdgePct : ℚ
  deriving DecidableEq, Repr

/-- `analyzeTwoSidedMarket` from src/utils/odds.ts.  The source also checks
`Number.isFinite` on `overround`, `pNoVigYou` and `fairDecimal`; over exact
rationals those intermediate values are always finite, so only the order and
sign guards remain. -/
def analyzeTwoSidedMarket (yourOdds oppOdds : JSNum) : Option MarketVigResult :=
  match americanToDecimal yourOdds, americanToImpliedProb yourOdds,
        americanToImpliedProb oppOdds with
  | some bookDecimal, some pYou, some pOpp =>
      let overround := pYou + pOpp
      if overround ≤ 0 then none
      else
        let hold := overround - 1
        let pNoVigYou := pYou / overround
        if pNoVigYou ≤ 0 ∨ 1 ≤ pNoVigYou then none
        else
          let fairDecimal := 1 / pNoVigYou
          if fairDecimal ≤ 1 then none
          else
            some { pYou := pYou, pOpp := pOpp, overround := overround,
                   hold := hold, pNoVigYou := pNoVigYou,
                   fairDecimal := fairDecimal,
                   houseEdgePct := 1 - bookDecimal / fairDecimal }
  | _, _, _ => none

/-- `Leg` from src/lib/parlayMath.ts. -/
structure Leg where
  id : ℤ
  label : String
  americanOdds : String
  useOpponent : Bool
  opponentOdds : String
  deriving DecidableEq, Repr

/-- `ParsedLeg` from src/lib/parlayMath.ts: a `Leg` together with its parsed
odds, conversion results and validity flag. -/
structure ParsedLeg extends Leg where
  oddsNum : JSNum
  decimal : Option ℚ
  impliedProb : Option ℚ
  isValid : Bool
  deriving DecidableEq, Repr

/-- `ParlayMetrics` from src/lib/parlayMath.ts. -/
structure ParlayMetrics where
  combinedDecimal : ℚ
  parlayImpliedProb : ℚ
  potentialReturn : ℚ
  profit : ℚ
  deriving DecidableEq, Repr

/-- `parseStake` from src/lib/parlayMath.ts. -/
def parseStake (stake : String) : Option ℚ :=
  match jsNumber stake with
  | JSNum.num n => if 0 < n then some n else none
  | _ => none

/-- The per-leg body of `parseLegs` (src/lib/parlayMath.ts): parse the odds
string, attach both conversions, and compute the validity flag. -/
def mkParsedLeg (leg : Leg) : ParsedLeg :=
  let oddsNum := jsNumber leg.americanOdds
  let decimal := americanToDecimal oddsNum
  let impliedProb := americanToImpliedProb oddsNum
  { toLeg := leg
    oddsNum := oddsNum
    decimal := decimal
    impliedProb := impliedProb
    isValid := (jsTrim leg.americanOdds != "") && oddsNum.isFinite
        && !oddsNum.eqZero && decimal.isSome && impliedProb.isSome }

/-- Result record of `parseLegs`. -/
structure ParseLegsResult where
  parsedLegs : List ParsedLeg
  validLegs : List ParsedLeg
  allValid : Bool
  deriving DecidableEq, Repr

/-- `parseLegs` from src/lib/parlayMath.ts. -/
def parseLegs (legs : List Leg) : ParseLegsResult :=
  let parsedLegs := legs.map mkParsedLeg
  let validLegs := parsedLegs.filter (fun l => l.isValid)
  { parsedLegs := parsedLegs
    validLegs := validLegs
    allValid := (validLegs.length == legs.length) && decide (0 < validLegs.length) }

/-- `validLegs.reduce((acc, leg) => acc * (leg.decimal ?? 1), 1)`: the
combined decimal odds of a leg list. -/
def legsProduct (legs : List ParsedLeg) : ℚ :=
  legs.foldl (fun acc leg => acc * leg.decimal.getD 1) 1

/-- `computeParlayMetrics` from src/lib/parlayMath.ts (the `Number.isFinite`
check on the product is vacuous over exact rationals). -/
def computeParlayMetrics (stake : ℚ) (validLegs : List ParsedLeg) : Option ParlayMetrics :=
  if validLegs.isEmpty then none
  else
    let combinedDecimal := legsProduct validLegs
    if combinedDecimal ≤ 1 then none
    else
      some { combinedDecimal := combinedDecimal
             parlayImpliedProb := 1 / combinedDecimal
             potentialReturn := stake * combinedDecimal
             profit := stake * combinedDecimal - stake }

/-- `decimalToAmerican` from src/lib/parlayMath.ts. -/
def decimalToAmerican (decimal : ℚ) : Option ℤ :=
  if decimal ≤ 1 then none
  else if 2 ≤ decimal then some (jsRound ((decimal - 1) * 100))
  else some (jsRound (-100 / (decimal - 1)))

/-- `PricingScaleResult` from src/lib/parlayMath.ts. -/
structure PricingScaleResult where
  independentDecimal : ℚ
  bookTotalDecimal : ℚ
  adjustmentPct : ℚ
  deriving DecidableEq, Repr

/-- `computePricingScaleFromBookTotal` from src/lib/parlayMath.ts. -/
def computePricingScaleFromBookTotal (validLegs : List ParsedLeg)
    (bookTotalDecimal : ℚ) : Option PricingScaleResult :=
  if validLegs.length < 2 then none
  else if bookTotalDecimal ≤ 1 then none
  else
    let independentDecimal := legsProduct validLegs
    if independentDecimal ≤ 1 then none
    else
      some { independentDecimal := independentDecimal
             bookTotalDecimal := bookTotalDecimal
             adjustmentPct := (bookTotalDecimal / independentDecimal - 1) * 100 }

/-- The fair/no-vig metrics record produced by `fairParlayMetrics` in
src/App.tsx; the expected-value computation reads `parlayProbFair` from it. -/
structure FairParlayMetrics where
  parlayProbFair : ℚ
  fairDecimal : ℚ
  fairReturn : ℚ
  fairProfit : ℚ
  edgePct : Option ℚ
  avgLegHold : Option ℚ
  deriving DecidableEq, Repr

/-- Result record of `evMetrics` in src/App.tsx. -/
structure EvMetrics where
  evPerBet : ℚ
  evPct : ℚ
  deriving DecidableEq, Repr

/-- `evMetrics` from src/App.tsx: EV of the bet priced at the book's number
but hitting at the fair rate.  The JS guard `!parsedStake` is falsy for both
`null` and `0`, hence the explicit zero test; the `Number.isFinite(winProfit)`
check is vacuous over exact rationals. -/
def evMetrics (parsedStake : Option ℚ) (parlayMetrics : Option ParlayMetrics)
    (fairParlayMetrics : Option FairParlayMetrics) : Option EvMetrics :=
  match parsedStake, parlayMetrics, fairParlayMetrics with
  | some s, some pm, some fm =>
      if s = 0 then none
      else
        let pTrue := fm.parlayProbFair
        let winProfit := pm.profit
        if pTrue ≤ 0 ∨ 1 ≤ pTrue ∨ s ≤ 0 then none
        else
          let ev := pTrue * winProfit - (1 - pTrue) * s
          some { evPerBet := ev, evPct := ev / s * 100 }
  | _, _, _ => none

/-- The parlay pipeline of SlipPanel.tsx / AnalysisPanel.tsx:
`parsedStake ? computeParlayMetrics(parsedStake, validLegs) : null`. -/
def parlayFromInputs (stake : String) (validLegs : List ParsedLeg) : Option ParlayMetrics :=
  match parseStake stake with
  | some s => computeParlayMetrics s validLegs
  | none => none

/-- `nextId` from the parlay store (state/parlayStore.tsx):
`Math.max(...legs.map(l => l.id)) + 1`, or 1 for an empty list. -/
def nextId (legs : List Leg) : ℤ :=
  match legs.map Leg.id with
  | [] => 1
  | i :: is => is.foldl max i + 1

/-- `addLeg` from the parlay store: append a fresh default leg. -/
def addLeg (legs : List Leg) : List Leg :=
  legs ++ [{ id := nextId legs, label := "", americanOdds := "-110",
             useOpponent := false, opponentOdds := "" }]

/-- `removeLeg` from the parlay store: a no-op when at most one leg remains,
otherwise drop the legs carrying the given id. -/
def removeLeg (id : ℤ) (legs : List Leg) : List Leg :=
  if legs.length ≤ 1 then legs else legs.filter (fun l => l.id != id)

/-- A single-field update, as passed to `updateLeg`. -/
inductive LegUpdate where
  | setLabel : String → LegUpdate
  | setAmericanOdds : String → LegUpdate
  | setOpponentOdds : String → LegUpdate
  | setUseOpponent : Bool → LegUpdate
  deriving DecidableEq, Repr

/-- The per-leg body of `updateLeg` (state/parlayStore.tsx): turning
`useOpponent` off also clears the opponent odds. -/
def applyUpdate (u : LegUpdate) (leg : Leg) : Leg :=
  match u with
  | .setLabel v => { leg with label := v }
  | .setAmericanOdds v => { leg with americanOdds := v }
  | .setOpponentOdds v => { leg with opponentOdds := v }
  | .setUseOpponent false => { leg with useOpponent := false, opponentOdds := "" }
  | .setUseOpponent true => { leg with useOpponent := true }

/-- `updateLeg` from the parlay store. -/
def updateLeg (id : ℤ) (u : LegUpdate) (legs : List Leg) : List Leg :=
  legs.map (fun leg => if leg.id = id then applyUpdate u leg else leg)

/-- `applyPreviewRemovals` from the parlay store (the preview set is modelled
as a list of ids): a no-op when the preview set is empty, otherwise keep only
the legs whose id is not marked for removal. -/
def applyPreviewRemovals (previewRemovedIds : List ℤ) (legs : List Leg) : List Leg :=
  if previewRemovedIds.isEmpty then legs
  else legs.filter (fun l => !(previewRemovedIds.contains l.id))

/-- A raw -110 leg (spec Scenario A/C fixture). -/
def sampleBaseLeg : Leg :=
  { id := 1, label := "", americanOdds := "-110",
    useOpponent := false, opponentOdds := "" }

/-- The -110 leg as produced by the leg parser. -/
def sampleLeg : ParsedLeg := mkParsedLeg sampleBaseLeg

/-- A leg whose odds string is blank (invalid fixture). -/
def blankLeg : Leg :=
  { id := 2, label := "", americanOdds := "", useOpponent := false, opponentOdds := "" }

/-- A leg whose odds string is "0" (invalid fixture). -/
def zeroLeg : Leg :=
  { id := 3, label := "", americanOdds := "0", useOpponent := false, opponentOdds := "" }

/-- A leg whose odds string is "abc" (invalid fixture). -/
def abcLeg : Leg :=
  { id := 4, label := "", americanOdds := "abc", useOpponent := false, opponentOdds := "" }

lemma americanToDecimal_gt_one {o : JSNum} {d : ℚ} (h : americanToDecimal o = some d) :
    1 < d := by
  cases o with
  | num q =>
      by_cases hq : q = 0
      · simp [americanToDecimal, hq] at h
      · by_cases hpos : 0 < q
        · simp [americanToDecimal, hq, hpos] at h
          nlinarith [h]
        · have hneg : q < 0 := lt_of_le_of_ne (not_lt.mp hpos) hq
          simp [americanToDecimal, hq, hpos, jsAbs, hneg] at h
          have hq' : (0:ℚ) < -q := by linarith
          have : (0:ℚ) < 100 / -q := by positivity
          linarith [h]
  | nan => simp [americanToDecimal] at h
  | posInf => simp [americanToDecimal] at h
  | negInf => simp [americanToDecimal] at h

lemma americanToImpliedProb_mem_Ioo {o : JSNum} {p : ℚ}
    (h : americanToImpliedProb o = some p) : 0 < p ∧ p < 1 := by
  cases o with
  | num q =>
      by_cases hq : q = 0
      · simp [americanToImpliedProb, hq] at h
      · by_cases hpos : 0 < q
        · simp [americanToImpliedProb, hq, hpos] at h
          have h100 : (0:ℚ) < q + 100 := by linarith
          constructor
          · rw [← h]; positivity
          · rw [← h, div_lt_one h100]; linarith
        · have hneg : q < 0 := lt_of_le_of_ne (not_lt.mp hpos) hq
          simp [americanToImpliedProb, hq, hpos, jsAbs, hneg] at h
          have ha : (0:ℚ) < -q := by linarith
          have h100 : (0:ℚ) < -q + 100 := by linarith
          constructor
          · rw [← h]; positivity
          · rw [← h, div_lt_one h100]; linarith
  | nan => simp [americanToImpliedProb] at h
  | posInf => simp [americanToImpliedProb] at h
  | negInf => simp [americanToImpliedProb] at h

lemma americanToDecimal_isSome_iff (o : JSNum) :
    (americanToDecimal o).isSome = true ↔ (o.isFinite = true ∧ o ≠ JSNum.num 0) := by
  cases o with
  | num q =>
      by_cases hq : q = 0 <;>
        simp [americanToDecimal, JSNum.isFinite, hq] <;> split <;> simp
  | nan => simp [americanToDecimal, JSNum.isFinite]
  | posInf => simp [americanToDecimal, JSNum.isFinite]
  | negInf => simp [americanToDecimal, JSNum.isFinite]

lemma americanToImpliedProb_isSome_iff (o : JSNum) :
    (americanToImpliedProb o).isSome = true ↔ (o.isFinite = true ∧ o ≠ JSNum.num 0) := by
  cases o with
  | num q =>
      by_cases hq : q = 0 <;>
        simp [americanToImpliedProb, JSNum.isFinite, hq] <;> split <;> simp
  | nan => simp [americanToImpliedProb, JSNum.isFinite]
  | posInf => simp [americanToImpliedProb, JSNum.isFinite]
  | negInf => simp [americanToImpliedProb, JSNum.isFinite]

/-- C1: `americanToDecimal` returns no value exactly when the input is
non-finite or zero; for positive odds it returns `1 + odds/100`, for negative
odds `1 + 100/|odds|`, and every returned decimal is strictly greater
than 1. -/
theorem americanToDecimal_spec :
    (∀ o : JSNum, americanToDecimal o = none ↔ (o.isFinite = false ∨ o = JSNum.num 0))
    ∧ (∀ q : ℚ, 0 < q → americanToDecimal (JSNum.num q) = some (1 + q / 100))
    ∧ (∀ q : ℚ, q < 0 → americanToDecimal (JSNum.num q) = some (1 + 100 / jsAbs q))
    ∧ (∀ (o : JSNum) (d : ℚ), americanToDecimal o = some d → 1 < d) := by
  refine ⟨?_, ?_, ?_, ?_⟩
  · intro o
    have h := americanToDecimal_isSome_iff o
    rcases ho : americanToDecimal o with _ | d
    · simp [ho] at h
      cases o with
      | num q => simpa [JSNum.isFinite] using h
      | nan => simp [JSNum.isFinite]
      | posInf => simp [JSNum.isFinite]
      | negInf => simp [JSNum.isFinite]
    · simp [ho] at h
      simp [h.1, h.2]
  · intro q hq
    have hq0 : q ≠ 0 := ne_of_gt hq
    simp [americanToDecimal, hq0, hq]
  · intro q hq
    have hq0 : q ≠ 0 := ne_of_lt hq
    have hpos : ¬ 0 < q := by linarith
    simp [americanToDecimal, hq0, hpos]
  · intro o d h
    exact americanToDecimal_gt_one h

/-- Witness for C1 at concrete inputs. -/
theorem americanToDecimal_spec_witness :
    americanToDecimal (JSNum.num 180) = some (1 + 180 / 100)
    ∧ americanToDecimal (JSNum.num (-110)) = some (1 + 100 / jsAbs (-110))
    ∧ (1 : ℚ) < 1 + 100 / jsAbs (-110) := by
  refine ⟨americanToDecimal_spec.2.1 180 (by norm_num),
          americanToDecimal_spec.2.2.1 (-110) (by norm_num), ?_⟩
  exact americanToDecimal_spec.2.2.2 (JSNum.num (-110)) _
    (americanToDecimal_spec.2.2.1 (-110) (by norm_num))

/-- C2: `americanToImpliedProb` returns no value exactly when the input is
non-finite or zero; for positive odds it returns `100/(odds+100)`, for
negative odds `|odds|/(|odds|+100)`, and every returned probability lies
strictly between 0 and 1. -/
theorem americanToImpliedProb_spec :
    (∀ o : JSNum, americanToImpliedProb o = none ↔ (o.isFinite = false ∨ o = JSNum.num 0))
    ∧ (∀ q : ℚ, 0 < q → americanToImpliedProb (JSNum.num q) = some (100 / (q + 100)))
    ∧ (∀ q : ℚ, q < 0 →
        americanToImpliedProb (JSNum.num q) = some (jsAbs q / (jsAbs q + 100)))
    ∧ (∀ (o : JSNum) (p : ℚ), americanToImpliedProb o = some p → 0 < p ∧ p < 1) := by
  refine ⟨?_, ?_, ?_, ?_⟩
  · intro o
    have h := americanToImpliedProb_isSome_iff o
    rcases ho : americanToImpliedProb o with _ | p
    · simp [ho] at h
      cases o with
      | num q => simpa [JSNum.isFinite] using h
      | nan => simp [JSNum.isFinite]
      | posInf => simp [JSNum.isFinite]
      | negInf => simp [JSNum.isFinite]
    · simp [ho] at h
      simp [h.1, h.2]
  · intro q hq
    have hq0 : q ≠ 0 := ne_of_gt hq
    simp [americanToImpliedProb, hq0, hq]
  · intro q hq
    have hq0 : q ≠ 0 := ne_of_lt hq
    have hpos : ¬ 0 < q := by linarith
    simp [americanToImpliedProb, hq0, hpos]
  · intro o p h
    exact americanToImpliedProb_mem_Ioo h

/-- Witness for C2 at concrete inputs. -/
theorem americanToImpliedProb_spec_witness :
    americanToImpliedProb (JSNum.num 180) = some (100 / (180 + 100))
    ∧ americanToImpliedProb (JSNum.num (-110)) = some (jsAbs (-110) / (jsAbs (-110) + 100))
    ∧ 0 < jsAbs (-110) / (jsAbs (-110) + 100) ∧ jsAbs (-110) / (jsAbs (-110) + 100) < 1 := by
  refine ⟨americanToImpliedProb_spec.2.1 180 (by norm_num),
          americanToImpliedProb_spec.2.2.1 (-110) (by norm_num), ?_⟩
  exact americanToImpliedProb_spec.2.2.2 (JSNum.num (-110)) _
    (americanToImpliedProb_spec.2.2.1 (-110) (by norm_num))

lemma analyzeTwoSidedMarket_eq_of_some {y o : JSNum} {d py po : ℚ}
    (hd : americanToDecimal y = some d) (hpy : americanToImpliedProb y = some py)
    (hpo : americanToImpliedProb o = some po) :
    analyzeTwoSidedMarket y o =
      if py + po ≤ 0 then none
      else if py / (py + po) ≤ 0 ∨ 1 ≤ py / (py + po) then none
      else if 1 / (py / (py + po)) ≤ 1 then none
      else some ⟨py, po, py + po, py + po - 1, py / (py + po), 1 / (py / (py + po)),
                 1 - d / (1 / (py / (py + po)))⟩ := by
  simp [analyzeTwoSidedMarket, hd, hpy, hpo]

lemma analyzeTwoSidedMarket_none_left {y o : JSNum}
    (h : americanToDecimal y = none ∨ americanToImpliedProb y = none
        ∨ americanToImpliedProb o = none) :
    analyzeTwoSidedMarket y o = none := by
  rcases h with h | h | h
  · rcases hpy : americanToImpliedProb y with _ | py <;>
      rcases hpo : americanToImpliedProb o with _ | po <;>
        simp [analyzeTwoSidedMarket, h, hpy, hpo]
  · rcases hd : americanToDecimal y with _ | d <;>
      rcases hpo : americanToImpliedProb o with _ | po <;>
        simp [analyzeTwoSidedMarket, h, hd, hpo]
  · rcases hd : americanToDecimal y with _ | d <;>
      rcases hpy : americanToImpliedProb y with _ | py <;>
        simp [analyzeTwoSidedMarket, h, hd, hpy]

/-- C3: `analyzeTwoSidedMarket` is all-or-nothing.  It returns a full result
exactly when both sides convert, the overround is positive, the no-vig
probability lies strictly within (0,1), and the fair decimal exceeds 1; on
success the result satisfies `overround = pYou + pOpp`,
`hold = overround - 1` (not clamped), `pNoVigYou = pYou / overround`,
`fairDecimal = 1 / pNoVigYou`, and
`houseEdgePct = 1 - americanToDecimal(yourOdds)/fairDecimal`; in every other
case it returns `none`. -/
theorem analyzeTwoSidedMarket_spec :
    ∀ y o : JSNum,
      ((∃ r, analyzeTwoSidedMarket y o = some r) ↔
        ∃ d py po, americanToDecimal y = some d
          ∧ americanToImpliedProb y = some py
          ∧ americanToImpliedProb o = some po
          ∧ 0 < py + po
          ∧ 0 < py / (py + po) ∧ py / (py + po) < 1
          ∧ 1 < 1 / (py / (py + po)))
      ∧ (∀ r, analyzeTwoSidedMarket y o = some r →
          americanToImpliedProb y = some r.pYou
          ∧ americanToImpliedProb o = some r.pOpp
          ∧ r.overround = r.pYou + r.pOpp
          ∧ r.hold = r.overround - 1
          ∧ r.pNoVigYou = r.pYou / r.overround
          ∧ r.fairDecimal = 1 / r.pNoVigYou
          ∧ ∃ d, americanToDecimal y = some d
              ∧ r.houseEdgePct = 1 - d / r.fairDecimal) := by
  intro y o
  rcases hd : americanToDecimal y with _ | d
  · have hn := analyzeTwoSidedMarket_none_left (y := y) (o := o) (Or.inl hd)
    refine ⟨⟨?_, ?_⟩, ?_⟩
    · rintro ⟨r, hr⟩; rw [hn] at hr; cases hr
    · rintro ⟨d', py', po', hd', -⟩; cases hd'
    · intro r hr; rw [hn] at hr; cases hr
  · rcases hpy : americanToImpliedProb y with _ | py
    · have hn := analyzeTwoSidedMarket_none_left (y := y) (o := o) (Or.inr (Or.inl hpy))
      refine ⟨⟨?_, ?_⟩, ?_⟩
      · rintro ⟨r, hr⟩; rw [hn] at hr; cases hr
      · rintro ⟨d', py', po', -, hpy', -⟩; cases hpy'
      · intro r hr; rw [hn] at hr; cases hr
    · rcases hpo : americanToImpliedProb o with _ | po
      · have hn := analyzeTwoSidedMarket_none_left (y := y) (o := o) (Or.inr (Or.inr hpo))
        refine ⟨⟨?_, ?_⟩, ?_⟩
        · rintro ⟨r, hr⟩; rw [hn] at hr; cases hr
        · rintro ⟨d', py', po', -, -, hpo', -⟩; cases hpo'
        · intro r hr; rw [hn] at hr; cases hr
      · have he := analyzeTwoSidedMarket_eq_of_some hd hpy hpo
        by_cases h1 : py + po ≤ 0
        · rw [he, if_pos h1]
          refine ⟨⟨?_, ?_⟩, ?_⟩
          · rintro ⟨r, hr⟩; cases hr
          · rintro ⟨d', py', po', -, hpy', hpo', hsum, -⟩
            cases hpy'; cases hpo'
            exact absurd hsum (not_lt.mpr h1)
          · intro r hr; cases hr
        · rw [if_neg h1] at he
          by_cases h2 : py / (py + po) ≤ 0 ∨ 1 ≤ py / (py + po)
          · rw [he, if_pos h2]
            refine ⟨⟨?_, ?_⟩, ?_⟩
            · rintro ⟨r, hr⟩; cases hr
            · rintro ⟨d', py', po', -, hpy', hpo', -, hr0, hr1, -⟩
              cases hpy'; cases hpo'
              rcases h2 with h2 | h2
              · exact absurd hr0 (not_lt.mpr h2)
              · exact absurd hr1 (not_lt.mpr h2)
            · intro r hr; cases hr
          · rw [if_neg h2] at he
            by_cases h3 : 1 / (py / (py + po)) ≤ 1
            · rw [he, if_pos h3]
              refine ⟨⟨?_, ?_⟩, ?_⟩
              · rintro ⟨r, hr⟩; cases hr
              · rintro ⟨d', py', po', -, hpy', hpo', -, -, -, hfair⟩
                cases hpy'; cases hpo'
                exact absurd hfair (not_lt.mpr h3)
              · intro r hr; cases hr
            · rw [if_neg h3] at he
              push_neg at h1 h2 h3
              refine ⟨⟨?_, ?_⟩, ?_⟩
              · intro _
                exact ⟨d, py, po, rfl, rfl, rfl, h1, h2.1, h2.2, h3⟩
              · intro _
                exact ⟨_, he⟩
              · intro r hr
                rw [he] at hr
                cases hr
                exact ⟨rfl, rfl, rfl, rfl, rfl, rfl, d, rfl, rfl⟩

/-- Witness for C3 at the -110 / -110 market of spec Scenario B. -/
theorem analyzeTwoSidedMarket_spec_witness :
    ∃ r, analyzeTwoSidedMarket (JSNum.num (-110)) (JSNum.num (-110)) = some r := by
  refine ((analyzeTwoSidedMarket_spec (JSNum.num (-110)) (JSNum.num (-110))).1).mpr ?_
  refine ⟨21/11, 11/21, 11/21, by norm_num [americanToDecimal, jsAbs],
          by norm_num [americanToImpliedProb, jsAbs],
          by norm_num [americanToImpliedProb, jsAbs], by norm_num, by norm_num, by norm_num,
          by norm_num⟩

lemma jsNumber_neg110 : jsNumber "-110" = JSNum.num (-110) := rfl

lemma sampleLeg_decimal : sampleLeg.decimal = some (21/11) := by
  simp [sampleLeg, sampleBaseLeg, mkParsedLeg, jsNumber_neg110, americanToDecimal, jsAbs]
  norm_num

lemma sampleLeg_isValid : sampleLeg.isValid = true := by
  simp [sampleLeg, sampleBaseLeg, mkParsedLeg, jsNumber_neg110, americanToDecimal, americanToImpliedProb,
        jsAbs, JSNum.isFinite, JSNum.eqZero, jsTrim]
  norm_num

lemma computeParlayMetrics_sample :
    computeParlayMetrics 10 [sampleLeg, sampleLeg]
      = some ⟨441/121, 121/441, 4410/121, 3200/121⟩ := by
  have h : legsProduct [sampleLeg, sampleLeg] = 441/121 := by
    simp [legsProduct, sampleLeg_decimal]
    norm_num
  simp [computeParlayMetrics, h]
  norm_num

/-- C4: `computeParlayMetrics` fails exactly when the leg list is empty or
the product of the legs' decimal odds is at most 1; on success it returns
the product as `combinedDecimal`, its reciprocal as `parlayImpliedProb`,
`stake * combinedDecimal` as `potentialReturn`, and
`potentialReturn - stake` as `profit`. -/
theorem computeParlayMetrics_spec :
    ∀ (stake : ℚ) (validLegs : List ParsedLeg),
      (computeParlayMetrics stake validLegs = none ↔
        (validLegs = [] ∨ legsProduct validLegs ≤ 1))
      ∧ (∀ m, computeParlayMetrics stake validLegs = some m →
          m.combinedDecimal = legsProduct validLegs
          ∧ m.parlayImpliedProb = 1 / m.combinedDecimal
          ∧ m.potentialReturn = stake * m.combinedDecimal
          ∧ m.profit = m.potentialReturn - stake) := by
  intro stake legs
  constructor
  · cases legs with
    | nil => simp [computeParlayMetrics]
    | cons a as =>
        by_cases h1 : legsProduct (a :: as) ≤ 1
        · simp [computeParlayMetrics, h1]
        · simp [computeParlayMetrics, h1]
  · intro m hm
    cases legs with
    | nil => simp [computeParlayMetrics] at hm
    | cons a as =>
        by_cases h1 : legsProduct (a :: as) ≤ 1
        · simp [computeParlayMetrics, h1] at hm
        · simp [computeParlayMetrics, h1] at hm
          subst hm
          exact ⟨rfl, (one_div _).symm, rfl, rfl⟩

/-- Witness for C4 on two -110 legs at stake 10 (spec Scenario C). -/
theorem computeParlayMetrics_spec_witness :
    ∃ m : ParlayMetrics, computeParlayMetrics 10 [sampleLeg, sampleLeg] = some m
      ∧ m.combinedDecimal = legsProduct [sampleLeg, sampleLeg]
      ∧ m.parlayImpliedProb = 1 / m.combinedDecimal
      ∧ m.potentialReturn = 10 * m.combinedDecimal
      ∧ m.profit = m.potentialReturn - 10 :=
  ⟨_, computeParlayMetrics_sample,
    (computeParlayMetrics_spec 10 [sampleLeg, sampleLeg]).2 _ computeParlayMetrics_sample⟩

lemma jsRound_le_floor_ge {q : ℚ} {z : ℤ} (h : (z : ℚ) ≤ q + 1/2) : z ≤ jsRound q :=
  Int.le_floor.mpr h

lemma jsRound_lt_of_lt {q : ℚ} {z : ℤ} (h : q + 1/2 < (z : ℚ)) : jsRound q < z :=
  Int.floor_lt.mpr h

/-- C10: `decimalToAmerican` returns no value exactly when the input is at
most 1; for every decimal input above 1 the returned American odds are at
least 100 when the decimal is at least 2 and at most -100 when it is below
2, hence never zero and never strictly between -100 and 100. -/
theorem decimalToAmerican_spec :
    ∀ d : ℚ,
      (decimalToAmerican d = none ↔ d ≤ 1)
      ∧ (∀ a : ℤ, decimalToAmerican d = some a →
          a ≠ 0 ∧ (2 ≤ d → 100 ≤ a) ∧ (d < 2 → a ≤ -100) ∧ ¬(-100 < a ∧ a < 100)) := by
  intro d
  constructor
  · by_cases hle : d ≤ 1
    · simp [decimalToAmerican, hle]
    · by_cases h2 : 2 ≤ d
      · simp [decimalToAmerican, hle, h2]
      · simp [decimalToAmerican, hle, h2]
  · intro a ha
    by_cases hle : d ≤ 1
    · simp [decimalToAmerican, hle] at ha
    · push_neg at hle
      by_cases h2 : 2 ≤ d
      · simp [decimalToAmerican, not_le.mpr hle, h2] at ha
        have h100 : 100 ≤ a := by
          rw [← ha]
          exact jsRound_le_floor_ge (by push_cast; nlinarith)
        exact ⟨by omega, fun _ => h100, fun hlt => absurd h2 (not_le.mpr hlt),
               by omega⟩
      · push_neg at h2
        simp [decimalToAmerican, not_le.mpr hle, not_le.mpr h2] at ha
        have hd1 : (0:ℚ) < d - 1 := by linarith
        have hneg : a ≤ -100 := by
          rw [← ha]
          have hq : -100 / (d - 1) < -100 := by
            rw [div_lt_iff hd1]
            nlinarith
          have := jsRound_lt_of_lt (q := -100 / (d - 1)) (z := -99)
            (by push_cast; linarith)
          omega
        exact ⟨by omega, fun hh => absurd hh (not_le.mpr h2), fun _ => hneg,
               by omega⟩

/-- Witness for C10 at decimal odds 3 (→ +200). -/
theorem decimalToAmerican_spec_witness :
    ∃ a : ℤ, decimalToAmerican 3 = some a ∧ a ≠ 0 ∧ (2 ≤ (3:ℚ) → 100 ≤ a)
      ∧ ((3:ℚ) < 2 → a ≤ -100) ∧ ¬(-100 < a ∧ a < 100) := by
  have h : decimalToAmerican 3 = some 200 := by
    norm_num [decimalToAmerican, jsRound]
  exact ⟨200, h, (decimalToAmerican_spec 3).2 200 h⟩

lemma parseStake_some {s : String} {q : ℚ} (h : parseStake s = some q) :
    jsNumber s = JSNum.num q ∧ 0 < q := by
  rcases hj : jsNumber s with _ | _ | _ | n <;> simp [parseStake, hj] at h
  by_cases hn : 0 < n
  · simp [hn] at h
    subst h
    exact ⟨rfl, hn⟩
  · simp [hn] at h

/-- C5: the expected-value computation returns a result exactly when the
fair probability lies strictly within (0,1) and the stake is positive (the
finiteness of the profit is automatic over exact rationals); on success it
returns `ev = pTrue * winProfit - (1 - pTrue) * stake`, with `winProfit`
taken from the book-priced parlay metrics, and `evPct = ev / stake * 100`. -/
theorem evMetrics_spec :
    ∀ (s : ℚ) (pm : ParlayMetrics) (fm : FairParlayMetrics),
      ((evMetrics (some s) (some pm) (some fm)).isSome = true ↔
        (0 < fm.parlayProbFair ∧ fm.parlayProbFair < 1 ∧ 0 < s))
      ∧ (0 < fm.parlayProbFair → fm.parlayProbFair < 1 → 0 < s →
          evMetrics (some s) (some pm) (some fm) =
            some { evPerBet := fm.parlayProbFair * pm.profit - (1 - fm.parlayProbFair) * s
                   evPct := (fm.parlayProbFair * pm.profit - (1 - fm.parlayProbFair) * s)
                       / s * 100 }) := by
  intro s pm fm
  constructor
  · by_cases h0 : s = 0
    · subst h0
      simp [evMetrics]
    · by_cases hg : fm.parlayProbFair ≤ 0 ∨ 1 ≤ fm.parlayProbFair ∨ s ≤ 0
      · have hn : evMetrics (some s) (some pm) (some fm) = none := by
          simp [evMetrics, h0, hg]
        rw [hn]
        simp only [Option.isSome_none, Bool.false_eq_true, false_iff]
        rintro ⟨hp0, hp1, hs⟩
        rcases hg with h | h | h
        · exact absurd hp0 (not_lt.mpr h)
        · exact absurd hp1 (not_lt.mpr h)
        · exact absurd hs (not_lt.mpr h)
      · push_neg at hg
        have hgor : ¬ (fm.parlayProbFair ≤ 0 ∨ 1 ≤ fm.parlayProbFair ∨ s ≤ 0) :=
          not_or.mpr ⟨not_le.mpr hg.1, not_or.mpr ⟨not_le.mpr hg.2.1, not_le.mpr hg.2.2⟩⟩
        have hsome : evMetrics (some s) (some pm) (some fm) =
            some { evPerBet := fm.parlayProbFair * pm.profit - (1 - fm.parlayProbFair) * s
                   evPct := (fm.parlayProbFair * pm.profit - (1 - fm.parlayProbFair) * s)
                       / s * 100 } := by
          simp [evMetrics, h0, hgor]
        rw [hsome]
        simp only [Option.isSome_some, true_iff]
        exact ⟨hg.1, hg.2.1, hg.2.2⟩
  · intro hp0 hp1 hs
    have h0 : ¬ s = 0 := ne_of_gt hs
    have hg : ¬ (fm.parlayProbFair ≤ 0 ∨ 1 ≤ fm.parlayProbFair ∨ s ≤ 0) :=
      not_or.mpr ⟨not_le.mpr hp0, not_or.mpr ⟨not_le.mpr hp1, not_le.mpr hs⟩⟩
    simp [evMetrics, h0, hg]

/-- Witness for C5: stake 10, book profit 3200/121, fair probability 1/4
(spec Scenario D shape). -/
theorem evMetrics_spec_witness :
    evMetrics (some 10) (some ⟨441/121, 121/441, 4410/121, 3200/121⟩)
        (some ⟨1/4, 4, 40, 30, none, none⟩)
      = some { evPerBet := (1/4 : ℚ) * (3200/121) - (1 - 1/4) * 10
               evPct := ((1/4 : ℚ) * (3200/121) - (1 - 1/4) * 10) / 10 * 100 } :=
  (evMetrics_spec 10 ⟨441/121, 121/441, 4410/121, 3200/121⟩
    ⟨1/4, 4, 40, 30, none, none⟩).2 (by norm_num) (by norm_num) (by norm_num)

/-- C8: non-positive stakes never produce metrics and never raise: the stake
parser returns `none` unless the stake string parses to a finite positive
number, the slip-panel parlay pipeline returns `none` whenever the stake
string does not parse to a positive number, and the expected-value
computation returns `none` for every non-positive stake. -/
theorem stakeGuard_spec :
    (∀ s : String, (parseStake s).isSome = true ↔
      ∃ q : ℚ, jsNumber s = JSNum.num q ∧ 0 < q)
    ∧ (∀ (stake : String) (legs : List ParsedLeg),
        (∀ q : ℚ, jsNumber stake = JSNum.num q → q ≤ 0) →
        parlayFromInputs stake legs = none)
    ∧ (∀ (s : ℚ) (pm : Option ParlayMetrics) (fm : Option FairParlayMetrics),
        s ≤ 0 → evMetrics (some s) pm fm = none) := by
  refine ⟨?_, ?_, ?_⟩
  · intro s
    constructor
    · intro h
      rcases Option.isSome_iff_exists.mp h with ⟨q, hq⟩
      rcases parseStake_some hq with ⟨hj, hpos⟩
      exact ⟨q, hj, hpos⟩
    · rintro ⟨q, hj, hpos⟩
      simp [parseStake, hj, hpos]
  · intro stake legs hneg
    unfold parlayFromInputs
    rcases hp : parseStake stake with _ | q
    · rfl
    · rcases parseStake_some hp with ⟨hj, hpos⟩
      exact absurd (hneg q hj) (not_le.mpr hpos)
  · intro s pm fm hs
    cases pm with
    | none => cases fm <;> rfl
    | some m =>
        cases fm with
        | none => rfl
        | some f =>
            by_cases h0 : s = 0
            · simp [evMetrics, h0]
            · simp [evMetrics, h0, hs]

/-- Witness for C8: stake string "-5" and stake -1. -/
theorem stakeGuard_spec_witness :
    parlayFromInputs "-5" [] = none ∧ evMetrics (some (-1)) none none = none := by
  constructor
  · refine stakeGuard_spec.2.1 "-5" [] ?_
    intro q hq
    rw [show jsNumber "-5" = JSNum.num (-5) from rfl] at hq
    cases hq
    norm_num
  · exact stakeGuard_spec.2.2 (-1) none none (by norm_num)

lemma length_filter_eq_length_iff {α : Type} (p : α → Bool) (l : List α) :
    (l.filter p).length = l.length ↔ ∀ a ∈ l, p a = true := by
  induction l with
  | nil => simp
  | cons x xs ih =>
      by_cases hx : p x = true
      · simp [hx, ih]
      · have hx' : p x = false := Bool.not_eq_true _ ▸ hx
        simp [hx']
        have hle := List.length_filter_le p xs
        omega

lemma isFinite_not_eqZero_iff (o : JSNum) :
    (o.isFinite = true ∧ ¬ o.eqZero = true) ↔ ∃ q : ℚ, q ≠ 0 ∧ o = JSNum.num q := by
  cases o with
  | num q =>
      constructor
      · rintro ⟨-, h2⟩
        refine ⟨q, ?_, rfl⟩
        intro h0
        exact h2 (by simp [JSNum.eqZero, h0])
      · rintro ⟨q', hq', heq⟩
        cases heq
        refine ⟨rfl, ?_⟩
        simp only [JSNum.eqZero, beq_iff_eq]
        exact hq'
  | nan => simp [JSNum.isFinite, JSNum.eqZero]
  | posInf => simp [JSNum.isFinite, JSNum.eqZero]
  | negInf => simp [JSNum.isFinite, JSNum.eqZero]

lemma mkParsedLeg_isValid_iff (leg : Leg) :
    ((mkParsedLeg leg).isValid = true) ↔
      (jsTrim leg.americanOdds ≠ ""
        ∧ (∃ q : ℚ, q ≠ 0 ∧ jsNumber leg.americanOdds = JSNum.num q)
        ∧ (americanToDecimal (jsNumber leg.americanOdds)).isSome = true
        ∧ (americanToImpliedProb (jsNumber leg.americanOdds)).isSome = true) := by
  show ((jsTrim leg.americanOdds != "") && (jsNumber leg.americanOdds).isFinite
      && !(jsNumber leg.americanOdds).eqZero
      && (americanToDecimal (jsNumber leg.americanOdds)).isSome
      && (americanToImpliedProb (jsNumber leg.americanOdds)).isSome) = true ↔ _
  rw [Bool.and_eq_true, Bool.and_eq_true, Bool.and_eq_true, Bool.and_eq_true]
  rw [bne_iff_ne, Bool.not_eq_true']
  constructor
  · rintro ⟨⟨⟨⟨h1, h2⟩, h3⟩, h4⟩, h5⟩
    refine ⟨h1, ?_, h4, h5⟩
    exact (isFinite_not_eqZero_iff _).mp ⟨h2, by simp [h3]⟩
  · rintro ⟨h1, hex, h4, h5⟩
    have h23 := (isFinite_not_eqZero_iff (jsNumber leg.americanOdds)).mpr hex
    exact ⟨⟨⟨⟨h1, h23.1⟩, by simpa using h23.2⟩, h4⟩, h5⟩

/-- C6: the leg parser returns the full parsed list in order (including
invalid entries), marks a leg valid exactly when its odds string is
non-blank, parses to a finite nonzero number and both conversions succeed,
returns `validLegs` as exactly the valid entries, sets `allValid` exactly
when every leg is valid and at least one leg exists, and marks legs with
odds string `""`, `"0"` or `"abc"` invalid and excludes them from
`validLegs`. -/
theorem parseLegs_spec :
    ∀ legs : List Leg,
      ((parseLegs legs).parsedLegs.map ParsedLeg.toLeg = legs)
      ∧ ((parseLegs legs).validLegs
          = (parseLegs legs).parsedLegs.filter (fun l => l.isValid))
      ∧ (∀ p ∈ (parseLegs legs).parsedLegs,
          (p.isValid = true ↔
            (jsTrim p.americanOdds ≠ ""
              ∧ (∃ q : ℚ, q ≠ 0 ∧ jsNumber p.americanOdds = JSNum.num q)
              ∧ (americanToDecimal (jsNumber p.americanOdds)).isSome = true
              ∧ (americanToImpliedProb (jsNumber p.americanOdds)).isSome = true)))
      ∧ ((parseLegs legs).allValid = true ↔
          ((∀ p ∈ (parseLegs legs).parsedLegs, p.isValid = true) ∧ legs ≠ []))
      ∧ (∀ p ∈ (parseLegs legs).parsedLegs,
          (p.americanOdds = "" ∨ p.americanOdds = "0" ∨ p.americanOdds = "abc") →
            p.isValid = false ∧ p ∉ (parseLegs legs).validLegs) := by
  intro legs
  refine ⟨?_, rfl, ?_, ?_, ?_⟩
  · show (legs.map mkParsedLeg).map ParsedLeg.toLeg = legs
    rw [List.map_map]
    have hc : (ParsedLeg.toLeg ∘ mkParsedLeg) = id := funext fun l => rfl
    rw [hc, List.map_id]
  · intro p hp
    rcases List.mem_map.mp hp with ⟨leg, -, rfl⟩
    exact mkParsedLeg_isValid_iff leg
  · show ((((legs.map mkParsedLeg).filter (fun l => l.isValid)).length == legs.length)
        && decide (0 < ((legs.map mkParsedLeg).filter (fun l => l.isValid)).length)) = true ↔ _
    rw [Bool.and_eq_true, beq_iff_eq, decide_eq_true_iff]
    constructor
    · rintro ⟨hlen, hpos⟩
      have hlen' : ((legs.map mkParsedLeg).filter (fun l => l.isValid)).length
          = (legs.map mkParsedLeg).length := by
        rw [List.length_map]
        exact hlen
      refine ⟨(length_filter_eq_length_iff _ _).mp hlen', ?_⟩
      intro hnil
      subst hnil
      simp at hpos
    · rintro ⟨hall, hne⟩
      have hlen' := (length_filter_eq_length_iff (fun l : ParsedLeg => l.isValid)
        (legs.map mkParsedLeg)).mpr hall
      constructor
      · rw [hlen', List.length_map]
      · rw [hlen', List.length_map]
        cases legs with
        | nil => exact absurd rfl hne
        | cons a as => simp
  · intro p hp hstr
    rcases List.mem_map.mp hp with ⟨leg, -, rfl⟩
    have hfalse : ¬ ((mkParsedLeg leg).isValid = true) := by
      rw [mkParsedLeg_isValid_iff]
      rintro ⟨hblank, ⟨q, hq0, hqeq⟩, -, -⟩
      rcases hstr with h | h | h
      · rw [show (mkParsedLeg leg).americanOdds = leg.americanOdds from rfl] at h
        rw [h] at hblank
        exact hblank rfl
      · rw [show (mkParsedLeg leg).americanOdds = leg.americanOdds from rfl] at h
        rw [h] at hqeq
        rw [show jsNumber "0" = JSNum.num 0 from rfl] at hqeq
        cases hqeq
        exact hq0 rfl
      · rw [show (mkParsedLeg leg).americanOdds = leg.americanOdds from rfl] at h
        rw [h] at hqeq
        rw [show jsNumber "abc" = JSNum.nan from rfl] at hqeq
        cases hqeq
    constructor
    · exact Bool.not_eq_true _ ▸ hfalse
    · intro hmem
      exact hfalse (List.mem_filter.mp hmem).2

/-- Witness for C6: the "abc" leg is invalid and excluded from the valid
sublist of the three-leg fixture list. -/
theorem parseLegs_spec_witness :
    (mkParsedLeg abcLeg).isValid = false
    ∧ mkParsedLeg abcLeg ∉ (parseLegs [blankLeg, zeroLeg, abcLeg]).validLegs :=
  (parseLegs_spec [blankLeg, zeroLeg, abcLeg]).2.2.2.2 (mkParsedLeg abcLeg)
    (by simp [parseLegs]) (Or.inr (Or.inr rfl))

lemma validLegs_decimal_gt_one {L : List Leg} {p : ParsedLeg}
    (hp : p ∈ (parseLegs L).validLegs) : ∃ d : ℚ, p.decimal = some d ∧ 1 < d := by
  have hmem := List.mem_filter.mp hp
  rcases List.mem_map.mp hmem.1 with ⟨leg, -, rfl⟩
  have hv : (mkParsedLeg leg).isValid = true := hmem.2
  rw [mkParsedLeg_isValid_iff] at hv
  rcases Option.isSome_iff_exists.mp hv.2.2.1 with ⟨d, hd⟩
  exact ⟨d, hd, americanToDecimal_gt_one hd⟩

lemma foldl_mul_le_of_one_le {l : List ParsedLeg} {acc : ℚ} (hacc : 0 < acc)
    (h : ∀ p ∈ l, 1 ≤ p.decimal.getD 1) :
    acc ≤ l.foldl (fun a p => a * p.decimal.getD 1) acc := by
  induction l generalizing acc with
  | nil => simp
  | cons x xs ih =>
      have hx : 1 ≤ x.decimal.getD 1 := h x (List.mem_cons_self x xs)
      have hpos : 0 < x.decimal.getD 1 := lt_of_lt_of_le one_pos hx
      have hacc' : 0 < acc * x.decimal.getD 1 := mul_pos hacc hpos
      calc acc ≤ acc * x.decimal.getD 1 := le_mul_of_one_le_right (le_of_lt hacc) hx
        _ ≤ xs.foldl (fun a p => a * p.decimal.getD 1) (acc * x.decimal.getD 1) :=
            ih hacc' (fun p hp => h p (List.mem_cons_of_mem x hp))

lemma legsProduct_gt_one {L : List Leg}
    (h2 : 2 ≤ (parseLegs L).validLegs.length) :
    1 < legsProduct (parseLegs L).validLegs := by
  rcases hv : (parseLegs L).validLegs with _ | ⟨x, xs⟩
  · rw [hv] at h2
    simp at h2
  · rcases validLegs_decimal_gt_one (hv ▸ List.mem_cons_self x xs) with ⟨d, hd, hd1⟩
    have hgetD : x.decimal.getD 1 = d := by rw [hd]; rfl
    have hstep : legsProduct (x :: xs)
        = xs.foldl (fun a p => a * p.decimal.getD 1) (1 * x.decimal.getD 1) := rfl
    rw [hstep, one_mul]
    have hall : ∀ p ∈ xs, 1 ≤ p.decimal.getD 1 := by
      intro p hp
      rcases validLegs_decimal_gt_one (hv ▸ List.mem_cons_of_mem x hp)
        with ⟨d', hd', hd1'⟩
      rw [show p.decimal.getD 1 = d' by rw [hd']; rfl]
      exact le_of_lt hd1'
    calc (1:ℚ) < d := hd1
      _ = x.decimal.getD 1 := hgetD.symm
      _ ≤ xs.foldl (fun a p => a * p.decimal.getD 1) (x.decimal.getD 1) :=
          foldl_mul_le_of_one_le (hgetD ▸ lt_trans one_pos hd1) hall

/-- C7: on the parser's valid-leg list, `computePricingScaleFromBookTotal`
has no failure path beyond its stated guards: with at least 2 valid legs and
a quoted total decimal above 1 it always returns `independentDecimal` equal
to the product of the legs' decimal odds and
`adjustmentPct = (quoted / independent - 1) * 100`; it returns `none`
exactly when fewer than 2 legs are supplied or the quoted decimal is at
most 1. -/
theorem computePricingScaleFromBookTotal_spec :
    ∀ (L : List Leg) (book : ℚ),
      (2 ≤ (parseLegs L).validLegs.length → 1 < book →
        computePricingScaleFromBookTotal (parseLegs L).validLegs book =
          some { independentDecimal := legsProduct (parseLegs L).validLegs
                 bookTotalDecimal := book
                 adjustmentPct :=
                   (book / legsProduct (parseLegs L).validLegs - 1) * 100 })
      ∧ (computePricingScaleFromBookTotal (parseLegs L).validLegs book = none ↔
          ((parseLegs L).validLegs.length < 2 ∨ book ≤ 1)) := by
  intro L book
  constructor
  · intro hlen hbook
    have hprod := legsProduct_gt_one hlen
    simp [computePricingScaleFromBookTotal, not_lt.mpr hlen, not_le.mpr hbook,
          not_le.mpr hprod]
  · constructor
    · intro hnone
      by_cases hlen : (parseLegs L).validLegs.length < 2
      · exact Or.inl hlen
      · by_cases hbook : book ≤ 1
        · exact Or.inr hbook
        · push_neg at hlen hbook
          have hprod := legsProduct_gt_one hlen
          simp [computePricingScaleFromBookTotal, not_lt.mpr hlen,
                not_le.mpr hbook, not_le.mpr hprod] at hnone
    · intro h
      rcases h with h | h
      · simp [computePricingScaleFromBookTotal, h]
      · by_cases hlen : (parseLegs L).validLegs.length < 2
        · simp [computePricingScaleFromBookTotal, hlen]
        · simp [computePricingScaleFromBookTotal, hlen, h]

/-- Witness for C7: two -110 legs against a quoted total decimal of 4. -/
theorem computePricingScaleFromBookTotal_spec_witness :
    computePricingScaleFromBookTotal
        (parseLegs [sampleBaseLeg, sampleBaseLeg]).validLegs 4
      = some { independentDecimal :=
                 legsProduct (parseLegs [sampleBaseLeg, sampleBaseLeg]).validLegs
               bookTotalDecimal := 4
               adjustmentPct :=
                 (4 / legsProduct (parseLegs [sampleBaseLeg, sampleBaseLeg]).validLegs
                   - 1) * 100 } :=
  (computePricingScaleFromBookTotal_spec [sampleBaseLeg, sampleBaseLeg] 4).1
    (by
      have hv2 : (mkParsedLeg sampleBaseLeg).isValid = true := sampleLeg_isValid
      have hv : (parseLegs [sampleBaseLeg, sampleBaseLeg]).validLegs
          = [sampleLeg, sampleLeg] := by
        simp [parseLegs, List.filter, hv2, sampleLeg]
      rw [hv]
      simp)
    (by norm_num)

/-- C9 counterexample: `applyPreviewRemovals` can empty a non-empty leg
collection — marking the only leg for preview removal and applying leaves an
empty list, so not every leg-collection operation preserves non-emptiness. -/
theorem legCollection_claim_counterexample :
    [sampleBaseLeg] ≠ [] ∧ applyPreviewRemovals [1] [sampleBaseLeg] = [] := by
  constructor
  · simp
  · rfl

/-- C9 (amended): adding a leg and updating a leg always preserve
non-emptiness; removing a leg by identifier preserves non-emptiness on lists
with pairwise-distinct identifiers, and removing the only remaining leg is a
no-op; applying preview removals preserves non-emptiness only when some
leg's identifier is not marked for removal. -/
theorem legCollection_nonempty_amended :
    (∀ legs : List Leg, addLeg legs ≠ [])
    ∧ (∀ (i : ℤ) (u : LegUpdate) (legs : List Leg), legs ≠ [] →
        updateLeg i u legs ≠ [])
    ∧ (∀ (i : ℤ) (legs : List Leg), legs ≠ [] → (legs.map Leg.id).Nodup →
        removeLeg i legs ≠ [])
    ∧ (∀ (i : ℤ) (l : Leg), removeLeg i [l] = [l])
    ∧ (∀ (ids : List ℤ) (legs : List Leg), (∃ l ∈ legs, l.id ∉ ids) →
        applyPreviewRemovals ids legs ≠ []) := by
  refine ⟨?_, ?_, ?_, ?_, ?_⟩
  · intro legs
    simp [addLeg]
  · intro i u legs hne
    simpa [updateLeg] using hne
  · intro i legs hne hnodup
    unfold removeLeg
    by_cases hlen : legs.length ≤ 1
    · rw [if_pos hlen]
      exact hne
    · rw [if_neg hlen]
      push_neg at hlen
      cases legs with
      | nil => exact absurd rfl hne
      | cons a as =>
          cases as with
          | nil => simp at hlen
          | cons b bs =>
              have hmap : (List.map Leg.id (a :: b :: bs))
                  = a.id :: b.id :: bs.map Leg.id := rfl
              rw [hmap] at hnodup
              have hcons := List.nodup_cons.mp hnodup
              have hab : a.id ≠ b.id :=
                fun h => hcons.1 (h ▸ List.mem_cons_self _ _)
              intro hfil
              rw [List.filter_eq_nil] at hfil
              by_cases hai : a.id = i
              · have hb := hfil b (by simp)
                simp [bne] at hb
                exact hab (by rw [hai, hb])
              · have ha := hfil a (by simp)
                simp [bne] at ha
                exact hai ha
  · intro i l
    rfl
  · intro ids legs hex
    rcases hex with ⟨l, hl, hnotin⟩
    unfold applyPreviewRemovals
    by_cases hids : ids.isEmpty
    · rw [if_pos hids]
      exact List.ne_nil_of_mem hl
    · rw [if_neg hids]
      intro hfil
      rw [List.filter_eq_nil] at hfil
      have hc := hfil l hl
      simp at hc
      exact hnotin hc

/-- Witness for C9 (amended) at concrete leg lists. -/
theorem legCollection_nonempty_amended_witness :
    updateLeg 1 (LegUpdate.setLabel "x") [sampleBaseLeg] ≠ []
    ∧ removeLeg 1 [sampleBaseLeg] = [sampleBaseLeg]
    ∧ removeLeg 1 [sampleBaseLeg, blankLeg] ≠ []
    ∧ applyPreviewRemovals [5] [sampleBaseLeg] ≠ [] := by
  refine ⟨?_, ?_, ?_, ?_⟩
  · exact legCollection_nonempty_amended.2.1 1 (LegUpdate.setLabel "x")
      [sampleBaseLeg] (by simp)
  · exact legCollection_nonempty_amended.2.2.2.1 1 sampleBaseLeg
  · exact legCollection_nonempty_amended.2.2.1 1 [sampleBaseLeg, blankLeg]
      (by simp) (by decide)
  · exact legCollection_nonempty_amended.2.2.2.2 [5] [sampleBaseLeg]
      ⟨sampleBaseLeg, by simp, by decide⟩
